import Mathlib

/-!
# A verified model of the Go/Weiqi rules engine

The repository is a browser front end (`index.js`) over a compiled
WebAssembly rules engine whose Rust source (`src/lib.rs`) is not part of
the reviewed tree.  The engine's observable contract — board state,
group/liberty analysis, capture resolution, legality/suicide checking,
the turn state machine, area scoring with komi, and the render-data
projection — is therefore modelled here from the specification, and the
testable properties are proved against that model.

Executable definitions (`Finset`-based flood fill, `place_stone`, …)
mirror the operational description; separate relational definitions
(`reach`, `relGroup`, `relLibs`) state connectivity mathematically, and
bridge lemmas identify the two.
-/

namespace GoGame

/-- Modelled from the spec: the tagged per-intersection value
`Empty | Black | White` (the missing engine's `Stone` enum). -/
inductive Stone : Type where
  | Empty : Stone
  | Black : Stone
  | White : Stone
deriving DecidableEq, Repr

/-- Modelled from the spec: the current player is always Black or White,
never Empty. -/
inductive Player : Type where
  | black : Player
  | white : Player
deriving DecidableEq, Repr

/-- The stone colour a player places. -/
def Player.stone : Player → Stone
  | Player.black => Stone.Black
  | Player.white => Stone.White

/-- The opposing player. -/
def Player.other : Player → Player
  | Player.black => Player.white
  | Player.white => Player.black

/-- Modelled from the spec: a 0-indexed intersection of the 19×19 grid. -/
abbrev Pos : Type := Fin 19 × Fin 19

/-- Orthogonal 4-adjacency (horizontal/vertical only, no diagonals). -/
def adj (p q : Pos) : Prop :=
  (p.1 = q.1 ∧ (p.2.val + 1 = q.2.val ∨ q.2.val + 1 = p.2.val)) ∨
  (p.2 = q.2 ∧ (p.1.val + 1 = q.1.val ∨ q.1.val + 1 = p.1.val))

instance : DecidablePred fun pq : Pos × Pos => adj pq.1 pq.2 := by
  intro pq; unfold adj; infer_instance

instance adjDecidable (p q : Pos) : Decidable (adj p q) := by
  unfold adj; infer_instance

/-- Modelled from the spec: the board, a total mapping from every
intersection to a stone (361 entries, no sparse representation). -/
abbrev Board : Type := Pos → Stone

/-- One step of the flood-fill expansion: add every cell of colour `c`
adjacent to the current set. -/
def expandStep (b : Board) (c : Stone) (s : Finset Pos) : Finset Pos :=
  s ∪ Finset.univ.filter (fun q => b q = c ∧ ∃ x ∈ s, adj x q)

/-- Iterate `f` until a fixed point is reached, with fuel. -/
def iterFix (f : Finset Pos → Finset Pos) : Nat → Finset Pos → Finset Pos
  | 0, s => s
  | n + 1, s => if f s = s then s else iterFix f n (f s)

/-- Modelled from the spec: the Group/Liberty Analyzer's connectivity
search — the maximal 4-connected component of cells of colour `b p`
containing `p`, computed by flood fill over 4-adjacency. -/
def groupFin (b : Board) (p : Pos) : Finset Pos :=
  iterFix (expandStep b (b p)) 361 {p}

/-- Modelled from the spec: the liberty set of a set of stones — the
empty intersections 4-adjacent to any member. -/
def libsFin (b : Board) (s : Finset Pos) : Finset Pos :=
  Finset.univ.filter (fun q => b q = Stone.Empty ∧ ∃ x ∈ s, adj x q)

/-! ### Relational counterparts

The theorems below are stated against a relational description of
connectivity, independent of the flood-fill bookkeeping. -/

/-- Same-colour reachability: a chain of 4-adjacent cells, all of
colour `c`, starting at `p` (whose colour is checked separately). -/
def reach (b : Board) (c : Stone) : Pos → Pos → Prop :=
  Relation.ReflTransGen (fun x y => adj x y ∧ b y = c)

/-- The group of `p` described relationally: everything same-colour
reachable from `p`. -/
def relGroup (b : Board) (p : Pos) : Set Pos :=
  {q | reach b (b p) p q}

/-- Liberties of a set of cells, described relationally. -/
def relLibs (b : Board) (s : Set Pos) : Set Pos :=
  {q | b q = Stone.Empty ∧ ∃ x ∈ s, adj x q}

/-! ### The engine: capture resolution, legality, the match state machine -/

/-- The ≤ 4 orthogonal neighbours of `p`. -/
def neighborsFin (p : Pos) : Finset Pos :=
  Finset.univ.filter (fun q => adj p q)

/-- Modelled from the spec: the Capture Resolver's removal set — the
union of the groups of those neighbours of `p` occupied by the colour
opposing `c` whose liberty set on `b1` (the board with the new stone
already at `p`) is empty. -/
def capturedSet (b1 : Board) (p : Pos) (c : Player) : Finset Pos :=
  Finset.univ.filter (fun q =>
    ∃ n ∈ neighborsFin p, b1 n = c.other.stone ∧
      libsFin b1 (groupFin b1 n) = ∅ ∧ q ∈ groupFin b1 n)

/-- The trial board: the candidate stone placed at `p`. -/
def b1Of (b : Board) (c : Player) (p : Pos) : Board :=
  Function.update b p c.stone

/-- The post-capture board: the trial board with every captured
opposing stone removed. -/
def b2Of (b : Board) (c : Player) (p : Pos) : Board :=
  fun q =>
    if q ∈ capturedSet (b1Of b c p) p c then Stone.Empty else b1Of b c p q

/-- Modelled from the spec: the Legality Checker / Capture Resolver run
against a scratch board.  Returns `none` when the move is illegal
(out-of-range coordinates, occupied cell, or suicide after opposing
captures are applied) and otherwise the post-capture board together
with the number of stones captured. -/
def moveResult (b : Board) (c : Player) (row col : Nat) :
    Option (Board × Nat) :=
  if h : row < 19 ∧ col < 19 then
    if b (⟨row, h.1⟩, ⟨col, h.2⟩) = Stone.Empty then
      if libsFin (b2Of b c (⟨row, h.1⟩, ⟨col, h.2⟩))
          (groupFin (b2Of b c (⟨row, h.1⟩, ⟨col, h.2⟩))
            (⟨row, h.1⟩, ⟨col, h.2⟩)) = ∅ then none
      else
        some (b2Of b c (⟨row, h.1⟩, ⟨col, h.2⟩),
          (capturedSet (b1Of b c (⟨row, h.1⟩, ⟨col, h.2⟩))
            (⟨row, h.1⟩, ⟨col, h.2⟩) c).card)
    else none
  else none

/-- Modelled from the spec: the Legality Checker's boolean verdict,
evaluated against a hypothetical board without touching match state. -/
def legalMove (b : Board) (c : Player) (row col : Nat) : Bool :=
  (moveResult b c row col).isSome

/-- Modelled from the spec: the MatchState aggregate — board, current
player, per-colour captured-stone counters, nullable last move, and
the consecutive-pass counter. -/
structure MatchState : Type where
  board : Board
  current : Player
  blackCaptured : Nat
  whiteCaptured : Nat
  lastMove : Option Pos
  passes : Nat

/-- Modelled from the spec: the initial state — empty board, Black to
move, zero captures, no last move, pass counter zero. -/
def initState : MatchState :=
  { board := fun _ => Stone.Empty
    current := Player.black
    blackCaptured := 0
    whiteCaptured := 0
    lastMove := none
    passes := 0 }

/-- Modelled from the spec: the match is over exactly when the
consecutive-pass counter has reached 2. -/
def game_over (st : MatchState) : Bool :=
  decide (2 ≤ st.passes)

/-- Modelled from the spec: `place_stone` — rejected with zero side
effects on an ended match or an illegal move; otherwise commits the
post-capture board, adds the captured count to the placing colour's
counter, records the last move, resets the pass counter, and switches
the current player. -/
def place_stone (st : MatchState) (row col : Nat) : Bool × MatchState :=
  if game_over st then (false, st)
  else
    match moveResult st.board st.current row col with
    | none => (false, st)
    | some (b2, ncap) =>
      (true,
        { board := b2
          current := st.current.other
          blackCaptured :=
            st.blackCaptured +
              (if st.current = Player.black then ncap else 0)
          whiteCaptured :=
            st.whiteCaptured +
              (if st.current = Player.white then ncap else 0)
          lastMove := some (⟨row % 19, Nat.mod_lt row (by omega)⟩,
                            ⟨col % 19, Nat.mod_lt col (by omega)⟩)
          passes := 0 })

/-- Modelled from the spec: `pass` — ignored on an ended match;
otherwise increments the pass counter and, unless that second
consecutive pass ends the match, switches the current player.  Does
not clear the last move. -/
def pass (st : MatchState) : MatchState :=
  if game_over st then st
  else
    { st with
      passes := st.passes + 1
      current := if st.passes + 1 < 2 then st.current.other else st.current }

/-- Modelled from the spec: `reset` — unconditionally returns to the
initial state. -/
def reset (_ : MatchState) : MatchState := initState

/-! ### Render-data projection -/

/-- The numeric stone encoding the front end consumes
(`index.js` compares `data.stone` against the literals 0/1/2):
Empty ↦ 0, Black ↦ 1, White ↦ 2. -/
def stoneCode : Stone → Nat
  | Stone.Empty => 0
  | Stone.Black => 1
  | Stone.White => 2

/-- Board lookup by plain natural coordinates (Empty out of range). -/
def stoneAt (b : Board) (row col : Nat) : Stone :=
  if h : row < 19 ∧ col < 19 then b (⟨row, h.1⟩, ⟨col, h.2⟩)
  else Stone.Empty

/-- Modelled from the spec: the nine canonical star points, at
0-indexed lines 3, 9, 15 in each direction. -/
def isStarPoint (row col : Nat) : Bool :=
  decide ((row = 3 ∨ row = 9 ∨ row = 15) ∧ (col = 3 ∨ col = 9 ∨ col = 15))

/-- One record of the render-data projection. -/
structure Cell : Type where
  row : Nat
  col : Nat
  stone : Nat
  is_star_point : Bool
  is_last_move : Bool
  is_valid_move : Bool
deriving DecidableEq, Repr

/-- Modelled from the spec: the Render-Data Projector — 361 records in
row-major order (row outer, col inner), each carrying the coordinate,
the stone value, the static star-point flag, whether it is the last
move, and whether the Legality Checker marks it playable for the
current player. -/
def get_board_data (st : MatchState) : List Cell :=
  (List.range 361).map (fun i =>
    { row := i / 19
      col := i % 19
      stone := stoneCode (stoneAt st.board (i / 19) (i % 19))
      is_star_point := isStarPoint (i / 19) (i % 19)
      is_last_move :=
        match st.lastMove with
        | none => false
        | some p => decide (p.1.val = i / 19 ∧ p.2.val = i % 19)
      is_valid_move := legalMove st.board st.current (i / 19) (i % 19) })

/-! ### Scoring -/

/-- The occupied intersections 4-adjacent to a set of cells. -/
def borderFin (b : Board) (s : Finset Pos) : Finset Pos :=
  Finset.univ.filter (fun n =>
    b n ≠ Stone.Empty ∧ ∃ x ∈ s, adj x n)

/-- Modelled from the spec: territory by area scoring — the number of
empty intersections whose maximal 4-connected empty region borders at
least one stone and only stones of colour `c`.  The flood fill
`groupFin` started at an empty cell computes exactly its empty
region. -/
def territory (b : Board) (c : Player) : Nat :=
  (Finset.univ.filter (fun q =>
    b q = Stone.Empty ∧
      (borderFin b (groupFin b q)).Nonempty ∧
      ∀ n ∈ borderFin b (groupFin b q), b n = c.stone)).card

/-- Stones of colour `c` on the board. -/
def stonesOn (b : Board) (c : Player) : Nat :=
  (Finset.univ.filter (fun q => b q = c.stone)).card

/-- Modelled from the spec: `calculate_scores` — per colour,
stones on board plus territory, with a fixed komi of 6.5 added to
White's total; no dead-stone removal is performed. -/
def calculate_scores (st : MatchState) : ℚ × ℚ :=
  ((stonesOn st.board Player.black + territory st.board Player.black : ℚ),
   (stonesOn st.board Player.white + territory st.board Player.white : ℚ)
     + 13 / 2)

/-! ### Relational vocabulary for the theorems -/

/-- The board invariant: every group of stones on the board has at
least one liberty. -/
def noDeadGroups (b : Board) : Prop :=
  ∀ p, b p ≠ Stone.Empty → (relLibs b (relGroup b p)).Nonempty

/-- The stones a move by `c` captures, described relationally: the
opposing-colour stones whose group on the trial board `b1` (the board
with the new stone already placed) has no liberties. -/
def capturedRel (b1 : Board) (c : Player) : Set Pos :=
  {q | b1 q = c.other.stone ∧ relLibs b1 (relGroup b1 q) = ∅}

/-- The occupied intersections bordering a set, described
relationally. -/
def relBorder (b : Board) (s : Set Pos) : Set Pos :=
  {n | b n ≠ Stone.Empty ∧ ∃ x ∈ s, adj x n}

/-- The suicide condition in isolation: the candidate cell is in range
and empty, yet after placing the stone and applying the opposing
captures the placed stone's own group has no liberties. -/
def isSuicide (b : Board) (c : Player) (row col : Nat) : Bool :=
  if h : row < 19 ∧ col < 19 then
    if b (⟨row, h.1⟩, ⟨col, h.2⟩) = Stone.Empty then
      decide (libsFin (b2Of b c (⟨row, h.1⟩, ⟨col, h.2⟩))
        (groupFin (b2Of b c (⟨row, h.1⟩, ⟨col, h.2⟩))
          (⟨row, h.1⟩, ⟨col, h.2⟩)) = ∅)
    else false
  else false

/-- The match states reachable from a fresh match by any sequence of
`place_stone`, `pass` and `reset` operations. -/
inductive Reachable : MatchState → Prop where
  | init : Reachable initState
  | step_place (st : MatchState) (row col : Nat) :
      Reachable st → Reachable (place_stone st row col).2
  | step_pass (st : MatchState) : Reachable st → Reachable (pass st)
  | step_reset (st : MatchState) : Reachable st → Reachable (reset st)

/-- Territory attribution described relationally: the empty cell `q`
counts for colour `c` exactly when its maximal 4-connected empty
region borders at least one stone and every stone it borders has
colour `c`. -/
def countsFor (b : Board) (c : Player) (q : Pos) : Prop :=
  b q = Stone.Empty ∧
    (relBorder b (relGroup b q)).Nonempty ∧
    relBorder b (relGroup b q) ⊆ {n | b n = c.stone}

/-- What committing a move at `p` must do to the state, described
relationally: exactly the opposing stones whose trial-board group lost
its last liberty disappear, every other cell carries the trial board's
value, the mover's counter grows by the number of removed stones, and
neither counter decreases. -/
def captureOutcome (st st' : MatchState) (p : Pos) : Prop :=
  (∀ q, q ∈ capturedRel (b1Of st.board st.current p) st.current →
      st'.board q = Stone.Empty) ∧
  (∀ q, q ∉ capturedRel (b1Of st.board st.current p) st.current →
      st'.board q = b1Of st.board st.current p q) ∧
  st'.blackCaptured = st.blackCaptured +
    (if st.current = Player.black
      then (capturedRel (b1Of st.board st.current p) st.current).ncard
      else 0) ∧
  st'.whiteCaptured = st.whiteCaptured +
    (if st.current = Player.white
      then (capturedRel (b1Of st.board st.current p) st.current).ncard
      else 0) ∧
  st.blackCaptured ≤ st'.blackCaptured ∧
  st.whiteCaptured ≤ st'.whiteCaptured

/-- The suicide verdict of a candidate move at the in-range empty
cell `p`, described relationally: the engine removes exactly the
opposing groups left with no liberty on the trial board, and accepts
the move exactly when the placed stone's own group still has a
liberty after those removals; a rejected move leaves the state
unchanged. -/
def suicideVerdict (st : MatchState) (row col : Nat) (p : Pos) : Prop :=
  ((↑(capturedSet (b1Of st.board st.current p) p st.current) : Set Pos)
      = capturedRel (b1Of st.board st.current p) st.current) ∧
  ((place_stone st row col).1 = true ↔
    (relLibs (b2Of st.board st.current p)
      (relGroup (b2Of st.board st.current p) p)).Nonempty) ∧
  ((place_stone st row col).1 = false →
    (place_stone st row col).2 = st)

/-- What `calculate_scores` must return, described relationally: per
colour, stones on the board plus the empty cells whose region counts
for that colour, with exactly 6.5 komi added to White's total; and
territory attribution is uniform on each empty region. -/
def scoringSpec (st : MatchState) : Prop :=
  calculate_scores st
    = ((Set.ncard {q | st.board q = Player.black.stone}
          + Set.ncard {q | countsFor st.board Player.black q} : ℚ),
       (Set.ncard {q | st.board q = Player.white.stone}
          + Set.ncard {q | countsFor st.board Player.white q} : ℚ) + 6.5) ∧
  ∀ (c : Player) (q q' : Pos), st.board q = Stone.Empty →
    q' ∈ relGroup st.board q →
    (countsFor st.board c q' ↔ countsFor st.board c q)

theorem adj_symm {p q : Pos} (h : adj p q) : adj q p := by
  rcases h with ⟨h1, h2⟩ | ⟨h1, h2⟩
  · exact Or.inl ⟨h1.symm, h2.symm⟩
  · exact Or.inr ⟨h1.symm, h2.symm⟩

theorem adj_irrefl (p : Pos) : ¬ adj p p := by
  intro h
  rcases h with ⟨_, h2 | h2⟩ | ⟨_, h2 | h2⟩ <;> omega


theorem self_mem_relGroup (b : Board) (p : Pos) : p ∈ relGroup b p :=
  Relation.ReflTransGen.refl

theorem relGroup_colour {b : Board} {p q : Pos} (hq : q ∈ relGroup b p) :
    b q = b p := by
  induction hq with
  | refl => rfl
  | tail _ h ih => exact h.2

/-! ### The flood fill computes the relational component -/

theorem subset_expandStep (b : Board) (c : Stone) (s : Finset Pos) :
    s ⊆ expandStep b c s :=
  Finset.subset_union_left

theorem subset_iterFix (f : Finset Pos → Finset Pos) (hf : ∀ s, s ⊆ f s) :
    ∀ (n : Nat) (s : Finset Pos), s ⊆ iterFix f n s := by
  intro n
  induction n with
  | zero => intro s; exact Finset.Subset.refl s
  | succ n ih =>
    intro s
    by_cases h : f s = s
    · simp [iterFix, h]
    · simp only [iterFix, if_neg h]
      exact (hf s).trans (ih (f s))

theorem iterFix_isFix (f : Finset Pos → Finset Pos) (hf : ∀ s, s ⊆ f s) :
    ∀ (n : Nat) (s : Finset Pos),
      (Finset.univ : Finset Pos).card ≤ n + s.card →
      f (iterFix f n s) = iterFix f n s := by
  intro n
  induction n with
  | zero =>
    intro s hcard
    have hs : s = Finset.univ :=
      Finset.eq_univ_of_card s
        (le_antisymm (Finset.card_le_univ s) (by simpa using hcard))
    subst hs
    simp only [iterFix]
    exact Finset.univ_subset_iff.mp (hf Finset.univ)
  | succ n ih =>
    intro s hcard
    by_cases h : f s = s
    · simp [iterFix, h]
    · simp only [iterFix, if_neg h]
      apply ih
      have hlt : s.card < (f s).card :=
        Finset.card_lt_card (lt_of_le_of_ne (hf s) (Ne.symm h))
      omega

/-- Every member of the flood fill is reachable from a member of the seed. -/
theorem iterFix_sound (b : Board) (c : Stone) (p : Pos) :
    ∀ (n : Nat) (s : Finset Pos), (∀ x ∈ s, reach b c p x) →
      ∀ q ∈ iterFix (expandStep b c) n s, reach b c p q := by
  intro n
  induction n with
  | zero => intro s hs q hq; exact hs q hq
  | succ n ih =>
    intro s hs q hq
    by_cases h : expandStep b c s = s
    · simp only [iterFix, if_pos h] at hq
      exact hs q hq
    · simp only [iterFix, if_neg h] at hq
      refine ih (expandStep b c s) ?_ q hq
      intro x hx
      rcases Finset.mem_union.mp hx with hx | hx
      · exact hs x hx
      · rcases Finset.mem_filter.mp hx with ⟨-, hcol, y, hy, hadj⟩
        exact Relation.ReflTransGen.tail (hs y hy) ⟨hadj, hcol⟩

theorem groupFin_sound {b : Board} {p q : Pos} (hq : q ∈ groupFin b p) :
    reach b (b p) p q :=
  iterFix_sound b (b p) p 361 {p}
    (by
      intro x hx
      simp only [Finset.mem_singleton] at hx
      subst hx
      exact Relation.ReflTransGen.refl)
    q hq

theorem groupFin_fix (b : Board) (c : Stone) (p : Pos) :
    expandStep b c (iterFix (expandStep b c) 361 {p}) =
      iterFix (expandStep b c) 361 {p} := by
  apply iterFix_isFix _ (subset_expandStep b c)
  have : (Finset.univ : Finset Pos).card = 361 := by
    simp [Finset.card_univ]
  simp [this]

theorem self_mem_groupFin (b : Board) (p : Pos) : p ∈ groupFin b p :=
  subset_iterFix _ (subset_expandStep b (b p)) 361 {p}
    (Finset.mem_singleton_self p)

theorem groupFin_complete {b : Board} {p q : Pos}
    (hq : reach b (b p) p q) : q ∈ groupFin b p := by
  induction hq with
  | refl => exact self_mem_groupFin b p
  | tail hxy hstep ih =>
    rename_i x y
    have hfix := groupFin_fix b (b p) p
    have : y ∈ expandStep b (b p) (iterFix (expandStep b (b p)) 361 {p}) := by
      apply Finset.mem_union_right
      refine Finset.mem_filter.mpr ⟨Finset.mem_univ y, hstep.2, x, ?_, hstep.1⟩
      exact ih
    rwa [hfix] at this

/-- The flood fill computes exactly the relational group. -/
theorem mem_groupFin (b : Board) (p q : Pos) :
    q ∈ groupFin b p ↔ q ∈ relGroup b p :=
  ⟨groupFin_sound, groupFin_complete⟩

theorem coe_groupFin (b : Board) (p : Pos) :
    (↑(groupFin b p) : Set Pos) = relGroup b p := by
  ext q; exact mem_groupFin b p q

theorem mem_libsFin (b : Board) (s : Finset Pos) (q : Pos) :
    q ∈ libsFin b s ↔ q ∈ relLibs b ↑s := by
  simp [libsFin, relLibs]

theorem coe_libsFin (b : Board) (s : Finset Pos) :
    (↑(libsFin b s) : Set Pos) = relLibs b ↑s := by
  ext q; exact mem_libsFin b s q

theorem libsFin_group_eq (b : Board) (p : Pos) :
    (↑(libsFin b (groupFin b p)) : Set Pos) = relLibs b (relGroup b p) := by
  rw [coe_libsFin, coe_groupFin]

theorem libsFin_group_empty_iff (b : Board) (p : Pos) :
    libsFin b (groupFin b p) = ∅ ↔ relLibs b (relGroup b p) = ∅ := by
  rw [← Finset.coe_eq_empty, libsFin_group_eq]


theorem player_stone_ne_empty (c : Player) : c.stone ≠ Stone.Empty := by
  cases c <;> simp [Player.stone]

theorem player_stone_ne_other (c : Player) : c.stone ≠ c.other.stone := by
  cases c <;> simp [Player.stone, Player.other]

theorem reach_colour {b : Board} {d : Stone} {x y : Pos}
    (h : reach b d x y) (hx : b x = d) : b y = d := by
  induction h with
  | refl => exact hx
  | tail _ hstep _ => exact hstep.2

theorem reach_symm {b : Board} {d : Stone} {x y : Pos} (hx : b x = d)
    (h : reach b d x y) : reach b d y x := by
  induction h with
  | refl => exact Relation.ReflTransGen.refl
  | tail hxy hstep ih =>
    rename_i y' z
    have hy' : b y' = d := reach_colour hxy hx
    exact Relation.ReflTransGen.trans
      (Relation.ReflTransGen.single ⟨adj_symm hstep.1, hy'⟩) ih

/-- Two members of the same group have the same group. -/
theorem relGroup_eq_of_mem {b : Board} {x y : Pos}
    (hy : y ∈ relGroup b x) : relGroup b y = relGroup b x := by
  have hcol : b y = b x := relGroup_colour hy
  ext z
  constructor
  · intro hz
    exact Relation.ReflTransGen.trans hy (by rwa [relGroup, hcol] at hz)
  · intro hz
    have hxy : reach b (b x) y x := reach_symm rfl hy
    rw [relGroup, hcol]
    exact Relation.ReflTransGen.trans hxy hz

/-- Reachability only looks at where the board carries colour `d`. -/
theorem reach_congr {b b' : Board} {d : Stone}
    (h : ∀ y, b y = d ↔ b' y = d) {x z : Pos} :
    reach b d x z ↔ reach b' d x z := by
  constructor
  · intro hr
    induction hr with
    | refl => exact Relation.ReflTransGen.refl
    | tail _ hstep ih =>
      exact Relation.ReflTransGen.tail ih ⟨hstep.1, (h _).mp hstep.2⟩
  · intro hr
    induction hr with
    | refl => exact Relation.ReflTransGen.refl
    | tail _ hstep ih =>
      exact Relation.ReflTransGen.tail ih ⟨hstep.1, (h _).mpr hstep.2⟩

/-! ### Basic state-machine lemmas -/

theorem place_stone_of_over {st : MatchState} (row col : Nat)
    (h : game_over st = true) : place_stone st row col = (false, st) := by
  unfold place_stone
  rw [h]
  rfl

theorem place_stone_of_none {st : MatchState} {row col : Nat}
    (hgo : game_over st = false)
    (h : moveResult st.board st.current row col = none) :
    place_stone st row col = (false, st) := by
  unfold place_stone
  rw [hgo, h]
  rfl

theorem place_stone_of_some {st : MatchState} {row col : Nat}
    {b2 : Board} {ncap : Nat} (hgo : game_over st = false)
    (h : moveResult st.board st.current row col = some (b2, ncap)) :
    place_stone st row col =
      (true,
        { board := b2
          current := st.current.other
          blackCaptured :=
            st.blackCaptured +
              (if st.current = Player.black then ncap else 0)
          whiteCaptured :=
            st.whiteCaptured +
              (if st.current = Player.white then ncap else 0)
          lastMove := some (⟨row % 19, Nat.mod_lt row (by omega)⟩,
                            ⟨col % 19, Nat.mod_lt col (by omega)⟩)
          passes := 0 }) := by
  unfold place_stone
  rw [hgo, h]
  rfl

theorem place_stone_false_inv {st : MatchState} {row col : Nat}
    (h : (place_stone st row col).1 = false) :
    (place_stone st row col).2 = st := by
  by_cases hgo : game_over st = true
  · rw [place_stone_of_over row col hgo]
  · rw [Bool.not_eq_true] at hgo
    rcases hmr : moveResult st.board st.current row col with _ | ⟨b2, ncap⟩
    · rw [place_stone_of_none hgo hmr]
    · rw [place_stone_of_some hgo hmr] at h
      simp at h

theorem place_stone_success_shape {st : MatchState} {row col : Nat}
    (h : (place_stone st row col).1 = true) :
    game_over st = false ∧
      ∃ b2 ncap, moveResult st.board st.current row col = some (b2, ncap) := by
  by_cases hgo : game_over st = true
  · rw [place_stone_of_over row col hgo] at h
    simp at h
  · rw [Bool.not_eq_true] at hgo
    refine ⟨hgo, ?_⟩
    rcases hmr : moveResult st.board st.current row col with _ | ⟨b2, ncap⟩
    · rw [place_stone_of_none hgo hmr] at h
      simp at h
    · exact ⟨b2, ncap, rfl⟩

theorem pass_board (st : MatchState) : (pass st).board = st.board := by
  unfold pass
  split <;> rfl

theorem pass_captures (st : MatchState) :
    (pass st).blackCaptured = st.blackCaptured ∧
      (pass st).whiteCaptured = st.whiteCaptured := by
  unfold pass
  split <;> exact ⟨rfl, rfl⟩

theorem game_over_iff (st : MatchState) :
    game_over st = true ↔ 2 ≤ st.passes := by
  simp [game_over]

theorem game_over_false_iff (st : MatchState) :
    game_over st = false ↔ st.passes < 2 := by
  simp [game_over]

theorem pass_of_over {st : MatchState} (h : game_over st = true) :
    pass st = st := by
  unfold pass
  rw [h]
  rfl

theorem pass_passes {st : MatchState} (hgo : game_over st = false) :
    (pass st).passes = st.passes + 1 := by
  unfold pass
  rw [hgo]
  rfl

theorem pass_current_first {st : MatchState} (hgo : game_over st = false)
    (hp : st.passes = 0) : (pass st).current = st.current.other := by
  unfold pass
  rw [hgo]
  simp [hp]

/-! ### Claim theorems: the match state machine -/

/-- C9: `reset` from any state whatsoever yields the initial state:
all intersections Empty, Black to move, both captured counters zero,
no last move, pass counter zero; it never fails. -/
theorem reset_yields_initial (st : MatchState) :
    reset st = initState ∧
    (∀ p, (reset st).board p = Stone.Empty) ∧
    (reset st).current = Player.black ∧
    (reset st).blackCaptured = 0 ∧
    (reset st).whiteCaptured = 0 ∧
    (reset st).lastMove = none ∧
    (reset st).passes = 0 :=
  ⟨rfl, fun _ => rfl, rfl, rfl, rfl, rfl, rfl⟩

/-- C8: Black moves first in a fresh or reset match, every successful
`place_stone` and every first-of-two `pass` toggles the current player
between Black and White, and a second consecutive pass ends the match
instead of producing a meaningful player switch. -/
theorem turn_alternation (st st' : MatchState) (row col : Nat) :
    initState.current = Player.black ∧
    (reset st).current = Player.black ∧
    Player.black.other = Player.white ∧
    Player.white.other = Player.black ∧
    (place_stone st row col = (true, st') →
      st'.current = st.current.other) ∧
    (game_over st = false → st.passes = 0 →
      (pass st).current = st.current.other) ∧
    (game_over st = false → st.passes = 1 →
      game_over (pass st) = true) := by
  refine ⟨rfl, rfl, rfl, rfl, ?_, ?_, ?_⟩
  · intro h
    have hsh : (place_stone st row col).1 = true := by rw [h]
    obtain ⟨hgo, b2, ncap, hmr⟩ := place_stone_success_shape hsh
    rw [place_stone_of_some hgo hmr] at h
    have := congrArg Prod.snd h
    simp only at this
    rw [← this]
  · intro hgo hp
    exact pass_current_first hgo hp
  · intro hgo hp
    rw [game_over_iff, pass_passes hgo]
    omega

/-- C8 witness: on the fresh match the hypotheses of the pass-toggle
conjunct hold and the first pass hands the turn to White. -/
theorem turn_alternation_witness :
    game_over initState = false ∧ initState.passes = 0 ∧
      (pass initState).current = initState.current.other :=
  ⟨by decide, by decide,
    (turn_alternation initState initState 0 0).2.2.2.2.2.1
      (by decide) (by decide)⟩

/-- C5: the pass counter drives termination — in progress, `pass`
increments it and ends the match exactly on the second consecutive
pass; a successful `place_stone` resets it to zero; once ended,
`place_stone` and `pass` leave the state unchanged and report failure
or are ignored, while `reset` remains available. -/
theorem termination_two_passes (st st' : MatchState) (row col : Nat) :
    game_over initState = false ∧
    (game_over st = false → (pass st).passes = st.passes + 1) ∧
    (game_over st = false →
      (game_over (pass st) = true ↔ st.passes = 1)) ∧
    (game_over st = false → game_over (pass (pass st)) = true) ∧
    (place_stone st row col = (true, st') → st'.passes = 0) ∧
    (game_over st = true → pass st = st) ∧
    (game_over st = true → place_stone st row col = (false, st)) ∧
    reset st = initState := by
  refine ⟨by decide, fun hgo => pass_passes hgo, ?_, ?_, ?_, ?_, ?_, rfl⟩
  · intro hgo
    have hlt : st.passes < 2 := (game_over_false_iff st).mp hgo
    rw [game_over_iff, pass_passes hgo]
    omega
  · intro hgo
    by_cases h2 : game_over (pass st) = true
    · rw [pass_of_over h2]
      exact h2
    · have h2f : game_over (pass st) = false := by
        simpa using h2
      rw [game_over_iff, pass_passes h2f, pass_passes hgo]
      omega
  · intro h
    have hsh : (place_stone st row col).1 = true := by rw [h]
    obtain ⟨hgo, b2, ncap, hmr⟩ := place_stone_success_shape hsh
    rw [place_stone_of_some hgo hmr] at h
    have := congrArg Prod.snd h
    simp only at this
    rw [← this]
  · intro hgo
    unfold pass
    rw [hgo]
    rfl
  · intro hgo
    exact place_stone_of_over row col hgo

/-- C5 witness: from the fresh match two consecutive passes end the
game, and a stone placed after a first pass resets the counter. -/
theorem termination_two_passes_witness :
    game_over initState = false ∧
      game_over (pass (pass initState)) = true :=
  ⟨by decide,
    (termination_two_passes initState initState 0 0).2.2.2.1 (by decide)⟩

/-! ### Dissection of moveResult -/

theorem moveResult_occupied {b : Board} {c : Player} {row col : Nat}
    (h : row < 19 ∧ col < 19)
    (hocc : b (⟨row, h.1⟩, ⟨col, h.2⟩) ≠ Stone.Empty) :
    moveResult b c row col = none := by
  unfold moveResult
  rw [dif_pos h, if_neg hocc]

theorem moveResult_some_elim {b : Board} {c : Player} {row col : Nat}
    {b2 : Board} {ncap : Nat}
    (h : moveResult b c row col = some (b2, ncap)) :
    ∃ (hr : row < 19) (hc : col < 19),
      b (⟨row, hr⟩, ⟨col, hc⟩) = Stone.Empty ∧
      libsFin (b2Of b c (⟨row, hr⟩, ⟨col, hc⟩))
          (groupFin (b2Of b c (⟨row, hr⟩, ⟨col, hc⟩))
            (⟨row, hr⟩, ⟨col, hc⟩)) ≠ ∅ ∧
      b2 = b2Of b c (⟨row, hr⟩, ⟨col, hc⟩) ∧
      ncap = (capturedSet (b1Of b c (⟨row, hr⟩, ⟨col, hc⟩))
        (⟨row, hr⟩, ⟨col, hc⟩) c).card := by
  unfold moveResult at h
  by_cases hb : row < 19 ∧ col < 19
  · rw [dif_pos hb] at h
    by_cases hocc : b (⟨row, hb.1⟩, ⟨col, hb.2⟩) = Stone.Empty
    · rw [if_pos hocc] at h
      by_cases hsui : libsFin (b2Of b c (⟨row, hb.1⟩, ⟨col, hb.2⟩))
          (groupFin (b2Of b c (⟨row, hb.1⟩, ⟨col, hb.2⟩))
            (⟨row, hb.1⟩, ⟨col, hb.2⟩)) = ∅
      · rw [if_pos hsui] at h
        exact absurd h (by simp)
      · rw [if_neg hsui] at h
        have hinj := Option.some.inj h
        exact ⟨hb.1, hb.2, hocc, hsui,
          (congrArg Prod.fst hinj).symm, (congrArg Prod.snd hinj).symm⟩
    · rw [if_neg hocc] at h
      exact absurd h (by simp)
  · rw [dif_neg hb] at h
    exact absurd h (by simp)

theorem place_stone_fst_eq_legal (st : MatchState) (row col : Nat)
    (hgo : game_over st = false) :
    (place_stone st row col).1 = legalMove st.board st.current row col := by
  unfold place_stone legalMove
  rw [hgo]
  cases moveResult st.board st.current row col with
  | none => rfl
  | some x => rfl

theorem capturedSet_colour {b1 : Board} {p q : Pos} {c : Player}
    (hq : q ∈ capturedSet b1 p c) : b1 q = c.other.stone := by
  rcases Finset.mem_filter.mp hq with ⟨-, n, -, hcol, -, hgrp⟩
  have hrel : q ∈ relGroup b1 n := (mem_groupFin b1 n q).mp hgrp
  rw [relGroup_colour hrel, hcol]

theorem b2Of_self (b : Board) (c : Player) (p : Pos) :
    b2Of b c p p = c.stone := by
  unfold b2Of
  have hp : p ∉ capturedSet (b1Of b c p) p c := by
    intro h
    have hcol := capturedSet_colour h
    rw [b1Of, Function.update_same] at hcol
    exact player_stone_ne_other c hcol
  rw [if_neg hp, b1Of, Function.update_same]

/-! ### Claim theorems: reporting, overlay, render data -/

set_option maxRecDepth 100000 in
/-- C3 counterexample: on an ended match (two consecutive passes) the
very first stone placement at (0,0) — in range, empty, not suicide —
is still reported as failure, so failure does not happen exactly on
the three illegal-move conditions the claim lists. -/
theorem place_stone_report_counterexample :
    (place_stone (pass (pass initState)) 0 0).1 = false ∧
    (0 < 19 ∧ 0 < 19) ∧
    stoneAt (pass (pass initState)).board 0 0 = Stone.Empty ∧
    isSuicide (pass (pass initState)).board
      (pass (pass initState)).current 0 0 = false := by
  refine ⟨by decide, by decide, by decide, by decide⟩

/-- C3 (amended): `place_stone` returns false exactly when the match
has already ended or the move is illegal (occupied target,
out-of-range coordinate, or suicide); a false return leaves the state
untouched and a true return commits the move. -/
theorem place_stone_report (st : MatchState) (row col : Nat) :
    ((place_stone st row col).1 = false ↔
      (game_over st = true ∨ ¬(row < 19 ∧ col < 19) ∨
        stoneAt st.board row col ≠ Stone.Empty ∨
        isSuicide st.board st.current row col = true)) ∧
    ((place_stone st row col).1 = false →
      (place_stone st row col).2 = st) ∧
    ((place_stone st row col).1 = true →
      (place_stone st row col).2.passes = 0 ∧
      (place_stone st row col).2.current = st.current.other ∧
      stoneAt (place_stone st row col).2.board row col
        = st.current.stone) := by
  refine ⟨?_, fun h => place_stone_false_inv h, ?_⟩
  · by_cases hgo : game_over st = true
    · rw [place_stone_of_over row col hgo]
      simp [hgo]
    · rw [Bool.not_eq_true] at hgo
      rw [place_stone_fst_eq_legal st row col hgo, hgo]
      unfold legalMove
      by_cases hb : row < 19 ∧ col < 19
      · by_cases hocc : st.board (⟨row, hb.1⟩, ⟨col, hb.2⟩) = Stone.Empty
        · by_cases hsui : libsFin
              (b2Of st.board st.current (⟨row, hb.1⟩, ⟨col, hb.2⟩))
              (groupFin (b2Of st.board st.current (⟨row, hb.1⟩, ⟨col, hb.2⟩))
                (⟨row, hb.1⟩, ⟨col, hb.2⟩)) = ∅
          · rw [show moveResult st.board st.current row col = none by
              unfold moveResult
              rw [dif_pos hb, if_pos hocc, if_pos hsui]]
            unfold stoneAt isSuicide
            rw [dif_pos hb, dif_pos hb, if_pos hocc]
            simp [hocc, hsui]
          · rw [show moveResult st.board st.current row col
                = some (b2Of st.board st.current (⟨row, hb.1⟩, ⟨col, hb.2⟩),
                    (capturedSet
                      (b1Of st.board st.current (⟨row, hb.1⟩, ⟨col, hb.2⟩))
                      (⟨row, hb.1⟩, ⟨col, hb.2⟩) st.current).card) by
              unfold moveResult
              rw [dif_pos hb, if_pos hocc, if_neg hsui]]
            unfold stoneAt isSuicide
            rw [dif_pos hb, dif_pos hb, if_pos hocc]
            simp [hocc, hb, hsui]
        · rw [moveResult_occupied hb hocc]
          unfold stoneAt
          rw [dif_pos hb]
          simp [hocc]
      · rw [show moveResult st.board st.current row col = none by
          unfold moveResult
          rw [dif_neg hb]]
        simp [hb]
  · intro h
    obtain ⟨hgo, b2, ncap, hmr⟩ := place_stone_success_shape h
    obtain ⟨hr, hc, hemp, hsui, hb2, hncap⟩ := moveResult_some_elim hmr
    rw [place_stone_of_some hgo hmr]
    refine ⟨rfl, rfl, ?_⟩
    unfold stoneAt
    rw [dif_pos ⟨hr, hc⟩]
    simp only [hb2]
    exact b2Of_self st.board st.current (⟨row, hr⟩, ⟨col, hc⟩)

/-- C3 witness: an out-of-range placement on the fresh match fails and
leaves the state untouched. -/
theorem place_stone_report_witness :
    (place_stone initState 19 0).1 = false ∧
      (place_stone initState 19 0).2 = initState :=
  ⟨by decide, (place_stone_report initState 19 0).2.1 (by decide)⟩

theorem get_board_data_length (st : MatchState) :
    (get_board_data st).length = 361 := by
  simp [get_board_data]

theorem get_board_data_get (st : MatchState)
    (i : Fin (get_board_data st).length) :
    (get_board_data st).get i =
      { row := i.val / 19
        col := i.val % 19
        stone := stoneCode (stoneAt st.board (i.val / 19) (i.val % 19))
        is_star_point := isStarPoint (i.val / 19) (i.val % 19)
        is_last_move :=
          match st.lastMove with
          | none => false
          | some p => decide (p.1.val = i.val / 19 ∧ p.2.val = i.val % 19)
        is_valid_move :=
          legalMove st.board st.current (i.val / 19) (i.val % 19) } := by
  rcases i with ⟨iv, hlt⟩
  rw [List.get_eq_getElem]
  simp [get_board_data]

/-- C10: in the 361-entry render-data list the entry at index
row·19+col describes intersection (row, col) and encodes its stone as
0 for Empty, 1 for Black and 2 for White. -/
theorem board_data_row_major (st : MatchState) (row col : Nat)
    (hr : row < 19) (hc : col < 19) (i : Fin (get_board_data st).length)
    (hi : i.val = row * 19 + col) :
    ((get_board_data st).get i).row = row ∧
    ((get_board_data st).get i).col = col ∧
    ((get_board_data st).get i).stone
      = stoneCode (st.board (⟨row, hr⟩, ⟨col, hc⟩)) ∧
    stoneCode Stone.Empty = 0 ∧ stoneCode Stone.Black = 1 ∧
    stoneCode Stone.White = 2 ∧
    (get_board_data st).length = 361 := by
  have hget := get_board_data_get st i
  have hdiv : i.val / 19 = row := by omega
  have hmod : i.val % 19 = col := by omega
  rw [hget]
  refine ⟨hdiv, hmod, ?_, rfl, rfl, rfl, get_board_data_length st⟩
  simp only [hdiv, hmod]
  unfold stoneAt
  rw [dif_pos ⟨hr, hc⟩]

/-- C10 witness: instantiated at the fresh match and intersection
(2, 5), index 2·19+5 = 43. -/
theorem board_data_row_major_witness :
    ((get_board_data initState).get
        ⟨43, by rw [get_board_data_length]; omega⟩).row = 2 :=
  (board_data_row_major initState 2 5 (by omega) (by omega)
    ⟨43, by rw [get_board_data_length]; omega⟩ rfl).1

/-- C4: with the game in progress the `is_valid_move` flag of the
render-data entry for an intersection agrees exactly with the success
of a `place_stone` call there by the current player; the flag is the
legality verdict for the current player only, and it is false on
every occupied intersection. -/
theorem overlay_consistency (st : MatchState) (row col : Nat)
    (hgo : game_over st = false) (hr : row < 19) (hc : col < 19)
    (i : Fin (get_board_data st).length) (hi : i.val = row * 19 + col) :
    (((get_board_data st).get i).is_valid_move
      = (place_stone st row col).1) ∧
    (((get_board_data st).get i).is_valid_move
      = legalMove st.board st.current row col) ∧
    (st.board (⟨row, hr⟩, ⟨col, hc⟩) ≠ Stone.Empty →
      ((get_board_data st).get i).is_valid_move = false) := by
  have hget := get_board_data_get st i
  have hdiv : i.val / 19 = row := by omega
  have hmod : i.val % 19 = col := by omega
  have hflag : ((get_board_data st).get i).is_valid_move
      = legalMove st.board st.current row col := by
    rw [hget]
    simp [hdiv, hmod]
  refine ⟨?_, hflag, ?_⟩
  · rw [hflag, place_stone_fst_eq_legal st row col hgo]
  · intro hocc
    rw [hflag]
    unfold legalMove
    rw [moveResult_occupied ⟨hr, hc⟩ hocc]
    rfl

/-- C4 witness: instantiated at the fresh match and intersection
(0, 0): the flag and the move outcome agree there. -/
theorem overlay_consistency_witness :
    ((get_board_data initState).get
        ⟨0, by rw [get_board_data_length]; omega⟩).is_valid_move
      = (place_stone initState 0 0).1 :=
  (overlay_consistency initState 0 0 (by decide) (by omega) (by omega)
    ⟨0, by rw [get_board_data_length]; omega⟩ rfl).1

/-! ### Characterising the captured set -/

theorem b1Of_eq_iff_d (b : Board) (c : Player) (p : Pos)
    (hemp : b p = Stone.Empty) (y : Pos) :
    b1Of b c p y = c.other.stone ↔ b y = c.other.stone := by
  by_cases hy : y = p
  · subst hy
    unfold b1Of
    rw [Function.update_same]
    constructor
    · intro h
      exact absurd h (player_stone_ne_other c)
    · intro h
      rw [hemp] at h
      exact absurd h.symm (player_stone_ne_empty c.other)
  · unfold b1Of
    rw [Function.update_noteq hy]

theorem relGroup_b1_of_d {b : Board} {c : Player} {p q : Pos}
    (hemp : b p = Stone.Empty) (hq : b1Of b c p q = c.other.stone) :
    relGroup (b1Of b c p) q = relGroup b q := by
  have hbq : b q = c.other.stone := (b1Of_eq_iff_d b c p hemp q).mp hq
  ext z
  simp only [relGroup, Set.mem_setOf_eq, hq, hbq]
  exact reach_congr (fun y => b1Of_eq_iff_d b c p hemp y)

theorem relLibs_b1_eq (b : Board) (c : Player) (p : Pos) (S : Set Pos) :
    relLibs (b1Of b c p) S = relLibs b S \ {p} := by
  ext z
  simp only [relLibs, Set.mem_setOf_eq, Set.mem_diff,
    Set.mem_singleton_iff]
  constructor
  · rintro ⟨hze, x, hx, hadj⟩
    have hzp : z ≠ p := by
      intro h
      subst h
      unfold b1Of at hze
      rw [Function.update_same] at hze
      exact player_stone_ne_empty c hze
    unfold b1Of at hze
    rw [Function.update_noteq hzp] at hze
    exact ⟨⟨hze, x, hx, hadj⟩, hzp⟩
  · rintro ⟨⟨hze, x, hx, hadj⟩, hzp⟩
    refine ⟨?_, x, hx, hadj⟩
    unfold b1Of
    rwa [Function.update_noteq hzp]

/-- Always-sound inclusion: what the neighbour scan removes really is
opposing stones in liberty-less trial-board groups. -/
theorem capturedSet_sub_rel (b : Board) (c : Player) (p : Pos) {q : Pos}
    (hq : q ∈ capturedSet (b1Of b c p) p c) :
    q ∈ capturedRel (b1Of b c p) c := by
  rcases Finset.mem_filter.mp hq with ⟨-, n, -, hcol, hlibs, hgrp⟩
  have hqrel : q ∈ relGroup (b1Of b c p) n :=
    (mem_groupFin (b1Of b c p) n q).mp hgrp
  have hq_col : b1Of b c p q = c.other.stone := by
    rw [relGroup_colour hqrel, hcol]
  refine ⟨hq_col, ?_⟩
  rw [relGroup_eq_of_mem hqrel, ← libsFin_group_eq, hlibs]
  simp

/-- Under the no-dead-groups invariant, the neighbour scan removes
every opposing stone whose trial-board group has no liberties: such a
group must touch the placed stone, hence is seen from a neighbour. -/
theorem capturedSet_eq_rel (b : Board) (c : Player) (p : Pos)
    (hinv : noDeadGroups b) (hemp : b p = Stone.Empty) :
    (↑(capturedSet (b1Of b c p) p c) : Set Pos)
      = capturedRel (b1Of b c p) c := by
  ext q
  constructor
  · intro hq
    exact capturedSet_sub_rel b c p (Finset.mem_coe.mp hq)
  · rintro ⟨hq_col, hlib⟩
    have hbq : b q = c.other.stone := (b1Of_eq_iff_d b c p hemp q).mp hq_col
    have hgrp_eq : relGroup (b1Of b c p) q = relGroup b q :=
      relGroup_b1_of_d hemp hq_col
    have hne := hinv q (by rw [hbq]; exact player_stone_ne_empty c.other)
    obtain ⟨z, hz⟩ := hne
    have hz_p : z = p := by
      by_contra hzp
      have hz1 : z ∈ relLibs (b1Of b c p) (relGroup (b1Of b c p) q) := by
        rw [hgrp_eq, relLibs_b1_eq]
        exact ⟨hz, hzp⟩
      rw [hlib] at hz1
      exact hz1
    rw [hz_p] at hz
    obtain ⟨-, x, hxG, hadj⟩ := hz
    have hx1G : x ∈ relGroup (b1Of b c p) q := by
      rw [hgrp_eq]
      exact hxG
    have hbx : b1Of b c p x = c.other.stone := by
      rw [relGroup_colour hx1G, hq_col]
    refine Finset.mem_coe.mpr (Finset.mem_filter.mpr
      ⟨Finset.mem_univ q, x, ?_, hbx, ?_, ?_⟩)
    · exact Finset.mem_filter.mpr ⟨Finset.mem_univ x, adj_symm hadj⟩
    · rw [libsFin_group_empty_iff, relGroup_eq_of_mem hx1G, hlib]
    · refine (mem_groupFin _ _ _).mpr ?_
      rw [relGroup_eq_of_mem hx1G]
      exact self_mem_relGroup _ _

/-! ### Claim theorems: capture resolution and suicide -/

/-- C1: on an in-range empty target, `place_stone` first removes
exactly the opposing groups with no liberty on the trial board and
only then judges the placed stone's own group: the move is rejected
as suicide precisely when that group has no liberty after the
opposing captures, and a rejected move leaves the state unchanged. -/
theorem suicide_checked_after_captures (st : MatchState) (row col : Nat)
    (hgo : game_over st = false) (hr : row < 19) (hc : col < 19)
    (hemp : st.board (⟨row, hr⟩, ⟨col, hc⟩) = Stone.Empty)
    (hinv : noDeadGroups st.board) :
    suicideVerdict st row col (⟨row, hr⟩, ⟨col, hc⟩) := by
  refine ⟨capturedSet_eq_rel st.board st.current _ hinv hemp, ?_,
    fun h => place_stone_false_inv h⟩
  rw [place_stone_fst_eq_legal st row col hgo]
  unfold legalMove moveResult
  rw [dif_pos ⟨hr, hc⟩, if_pos hemp]
  by_cases hsui : libsFin (b2Of st.board st.current (⟨row, hr⟩, ⟨col, hc⟩))
      (groupFin (b2Of st.board st.current (⟨row, hr⟩, ⟨col, hc⟩))
        (⟨row, hr⟩, ⟨col, hc⟩)) = ∅
  · rw [if_pos hsui]
    refine iff_of_false (by simp) ?_
    rw [← libsFin_group_eq, hsui]
    simp
  · rw [if_neg hsui]
    refine iff_of_true (by simp) ?_
    rw [← libsFin_group_eq, Finset.coe_nonempty]
    exact Finset.nonempty_iff_ne_empty.mpr hsui

/-- C1 witness: instantiated at the fresh match and intersection
(3, 3), whose board trivially satisfies the group invariant. -/
theorem suicide_checked_after_captures_witness :
    game_over initState = false ∧
      initState.board (⟨3, by omega⟩, ⟨3, by omega⟩) = Stone.Empty ∧
      noDeadGroups initState.board ∧
      suicideVerdict initState 3 3 (⟨3, by omega⟩, ⟨3, by omega⟩) :=
  ⟨by decide, rfl, fun _ h => absurd rfl h,
    suicide_checked_after_captures initState 3 3 (by decide)
      (by omega) (by omega) rfl (fun _ h => absurd rfl h)⟩

/-- C2: a committed placement removes exactly the stones of the
opposing groups whose liberty set is empty once the stone sits at the
played point (several groups at once are possible), removes no other
stone, adds the combined number of removed stones to the placing
colour's counter, and neither counter ever decreases under
`place_stone` or `pass`. -/
theorem capture_correctness (st st' : MatchState) (row col : Nat)
    (hr : row < 19) (hc : col < 19) (hinv : noDeadGroups st.board)
    (hsucc : place_stone st row col = (true, st')) :
    captureOutcome st st' (⟨row, hr⟩, ⟨col, hc⟩) ∧
      ∀ s : MatchState, (pass s).blackCaptured = s.blackCaptured ∧
        (pass s).whiteCaptured = s.whiteCaptured := by
  refine ⟨?_, fun s => pass_captures s⟩
  have hfst : (place_stone st row col).1 = true := by rw [hsucc]
  obtain ⟨hgo, b2, ncap, hmr⟩ := place_stone_success_shape hfst
  obtain ⟨hr', hc', hemp, hsui, hb2, hncap⟩ := moveResult_some_elim hmr
  have hcommit := place_stone_of_some hgo hmr
  rw [hsucc] at hcommit
  have hst' := ((Prod.mk.injEq _ _ _ _).mp hcommit).2
  have hcap_eq := capturedSet_eq_rel st.board st.current
    (⟨row, hr⟩, ⟨col, hc⟩) hinv hemp
  have hboard : st'.board
      = b2Of st.board st.current (⟨row, hr⟩, ⟨col, hc⟩) := by
    rw [hst']
    exact hb2
  have hcard : (capturedRel
      (b1Of st.board st.current (⟨row, hr⟩, ⟨col, hc⟩)) st.current).ncard
      = ncap := by
    rw [← hcap_eq, Set.ncard_coe_Finset, hncap]
  refine ⟨?_, ?_, ?_, ?_, ?_, ?_⟩
  · intro q hq
    have hq' : q ∈ capturedSet
        (b1Of st.board st.current (⟨row, hr⟩, ⟨col, hc⟩))
        (⟨row, hr⟩, ⟨col, hc⟩) st.current := by
      rw [← Finset.mem_coe, hcap_eq]
      exact hq
    rw [hboard]
    unfold b2Of
    rw [if_pos hq']
  · intro q hq
    have hq' : q ∉ capturedSet
        (b1Of st.board st.current (⟨row, hr⟩, ⟨col, hc⟩))
        (⟨row, hr⟩, ⟨col, hc⟩) st.current := by
      rw [← Finset.mem_coe, hcap_eq]
      exact hq
    rw [hboard]
    unfold b2Of
    rw [if_neg hq']
  · rw [hst', hcard]
  · rw [hst', hcard]
  · rw [hst']
    exact Nat.le_add_right _ _
  · rw [hst']
    exact Nat.le_add_right _ _

set_option maxRecDepth 100000 in
/-- C2 witness: the opening move at (3, 3) on the fresh match. -/
theorem capture_correctness_witness :
    noDeadGroups initState.board ∧
      place_stone initState 3 3 = (true, (place_stone initState 3 3).2) ∧
      (captureOutcome initState (place_stone initState 3 3).2
          (⟨3, by omega⟩, ⟨3, by omega⟩) ∧
        ∀ s : MatchState, (pass s).blackCaptured = s.blackCaptured ∧
          (pass s).whiteCaptured = s.whiteCaptured) := by
  have h1 : (place_stone initState 3 3).1 = true := by decide
  have hpair : place_stone initState 3 3
      = (true, (place_stone initState 3 3).2) := by
    rw [← h1]
  exact ⟨fun _ h => absurd rfl h, hpair,
    capture_correctness initState (place_stone initState 3 3).2 3 3
      (by omega) (by omega) (fun _ h => absurd rfl h) hpair⟩

/-! ### Claim theorems: scoring -/

theorem coe_borderFin (b : Board) (s : Finset Pos) :
    (↑(borderFin b s) : Set Pos) = relBorder b ↑s := by
  ext n
  simp [borderFin, relBorder]

theorem borderFin_group_eq (b : Board) (p : Pos) :
    (↑(borderFin b (groupFin b p)) : Set Pos)
      = relBorder b (relGroup b p) := by
  rw [coe_borderFin, coe_groupFin]

theorem stonesOn_eq (b : Board) (c : Player) :
    stonesOn b c = Set.ncard {q | b q = c.stone} := by
  unfold stonesOn
  rw [← Set.ncard_coe_Finset]
  congr 1
  ext q
  simp

theorem territory_eq (b : Board) (c : Player) :
    territory b c = Set.ncard {q | countsFor b c q} := by
  unfold territory
  rw [← Set.ncard_coe_Finset]
  congr 1
  ext q
  simp only [Finset.coe_filter, Finset.mem_univ, true_and,
    Set.mem_setOf_eq, countsFor]
  constructor
  · rintro ⟨hemp, hne, hall⟩
    refine ⟨hemp, ?_, ?_⟩
    · rw [← borderFin_group_eq, Finset.coe_nonempty]
      exact hne
    · intro n hn
      rw [← borderFin_group_eq] at hn
      exact hall n (Finset.mem_coe.mp hn)
  · rintro ⟨hemp, hne, hsub⟩
    refine ⟨hemp, ?_, ?_⟩
    · rw [← Finset.coe_nonempty, borderFin_group_eq]
      exact hne
    · intro n hn
      exact hsub (by rw [← borderFin_group_eq]; exact Finset.mem_coe.mpr hn)

/-- C6: once the match has ended, `calculate_scores` returns, per
colour, stones on the board plus territory — the empty cells whose
maximal 4-connected empty region borders at least one stone and only
stones of that colour — with exactly 6.5 komi added to White's total;
attribution is uniform on each empty region, and no stone is removed
as dead beforehand (the scores are read off the final board as it
stands). -/
theorem scores_area_komi (st : MatchState)
    (_hover : game_over st = true) : scoringSpec st := by
  constructor
  · unfold calculate_scores
    rw [stonesOn_eq, stonesOn_eq, territory_eq, territory_eq]
    refine Prod.ext rfl ?_
    simp only
    norm_num
  · intro c q q' hemp hq'
    have hcol : st.board q' = st.board q := relGroup_colour hq'
    have hgrp : relGroup st.board q' = relGroup st.board q :=
      relGroup_eq_of_mem hq'
    unfold countsFor
    rw [hgrp, hcol]

/-- C6 witness: the match ended by two consecutive passes. -/
theorem scores_area_komi_witness :
    game_over (pass (pass initState)) = true ∧
      scoringSpec (pass (pass initState)) :=
  ⟨by decide, scores_area_komi (pass (pass initState)) (by decide)⟩

/-! ### Preservation of the no-dead-groups invariant -/

theorem stone_cases (c : Player) (s : Stone) :
    s = Stone.Empty ∨ s = c.stone ∨ s = c.other.stone := by
  cases c <;> cases s <;> simp [Player.stone, Player.other]

theorem b2Of_of_not_cap {b : Board} {c : Player} {p q : Pos}
    (hq : q ∉ capturedSet (b1Of b c p) p c) :
    b2Of b c p q = b1Of b c p q := by
  unfold b2Of
  rw [if_neg hq]

theorem b2Of_of_cap {b : Board} {c : Player} {p q : Pos}
    (hq : q ∈ capturedSet (b1Of b c p) p c) :
    b2Of b c p q = Stone.Empty := by
  unfold b2Of
  rw [if_pos hq]

theorem b1Of_noteq {b : Board} {c : Player} {p q : Pos} (hq : q ≠ p) :
    b1Of b c p q = b q := by
  unfold b1Of
  rw [Function.update_noteq hq]

/-- A cell carrying the mover's colour on the post-capture board,
away from `p`, carried it before the move, and conversely. -/
theorem b2Of_cs_iff {b : Board} {c : Player} {p q : Pos} (hq : q ≠ p) :
    b2Of b c p q = c.stone ↔ b q = c.stone := by
  constructor
  · intro h
    by_cases hcap : q ∈ capturedSet (b1Of b c p) p c
    · rw [b2Of_of_cap hcap] at h
      exact absurd h.symm (player_stone_ne_empty c)
    · rw [b2Of_of_not_cap hcap, b1Of_noteq hq] at h
      exact h
  · intro h
    have hcap : q ∉ capturedSet (b1Of b c p) p c := by
      intro hcap
      have := capturedSet_colour hcap
      rw [b1Of_noteq hq, h] at this
      exact player_stone_ne_other c this
    rw [b2Of_of_not_cap hcap, b1Of_noteq hq]
    exact h

/-- Own-colour reachability on the post-capture board implies
reachability on the original board, provided the placed stone is not
reachable from the start cell. -/
theorem reach_b2_cs_to_b (b : Board) (c : Player) (p : Pos) {x z : Pos}
    (hemp : b p = Stone.Empty)
    (hx : ¬ reach (b2Of b c p) c.stone x p)
    (h : reach (b2Of b c p) c.stone x z) : reach b c.stone x z := by
  induction h with
  | refl => exact Relation.ReflTransGen.refl
  | tail hxy hstep ih =>
    rename_i y z
    have hzp : z ≠ p := by
      intro hz
      subst hz
      exact hx (Relation.ReflTransGen.tail hxy hstep)
    have hz : b z = c.stone := (b2Of_cs_iff hzp).mp hstep.2
    exact Relation.ReflTransGen.tail ih ⟨hstep.1, hz⟩

/-- Own-colour reachability on the original board survives to the
post-capture board: captures remove only stones of the opposing
colour. -/
theorem reach_b_cs_to_b2 (b : Board) (c : Player) (p : Pos) {x z : Pos}
    (hemp : b p = Stone.Empty) (h : reach b c.stone x z) :
    reach (b2Of b c p) c.stone x z := by
  induction h with
  | refl => exact Relation.ReflTransGen.refl
  | tail hxy hstep ih =>
    rename_i y z
    have hzp : z ≠ p := by
      intro hz
      subst hz
      rw [hemp] at hstep
      exact player_stone_ne_empty c hstep.2.symm
    exact Relation.ReflTransGen.tail ih ⟨hstep.1, (b2Of_cs_iff hzp).mpr hstep.2⟩

/-- Opposing-colour reachability is unaffected by removing captured
groups, when the start cell is not captured: captured groups are
whole components, disjoint from the surviving ones. -/
theorem reach_b2_d_iff_b1 (b : Board) (c : Player) (p : Pos) {x : Pos}
    (hinv : noDeadGroups b) (hemp : b p = Stone.Empty)
    (hxcap : x ∉ capturedSet (b1Of b c p) p c)
    (hb1x : b1Of b c p x = c.other.stone) (z : Pos) :
    reach (b2Of b c p) c.other.stone x z ↔
      reach (b1Of b c p) c.other.stone x z := by
  constructor
  · intro h
    induction h with
    | refl => exact Relation.ReflTransGen.refl
    | tail hxy hstep ih =>
      rename_i y w
      have hw : b1Of b c p w = c.other.stone := by
        by_cases hwcap : w ∈ capturedSet (b1Of b c p) p c
        · rw [b2Of_of_cap hwcap] at hstep
          exact absurd hstep.2.symm (player_stone_ne_empty c.other)
        · rw [b2Of_of_not_cap hwcap] at hstep
          exact hstep.2
      exact Relation.ReflTransGen.tail ih ⟨hstep.1, hw⟩
  · intro h
    induction h with
    | refl => exact Relation.ReflTransGen.refl
    | tail hxy hstep ih =>
      rename_i y z
      have hz1 : reach (b1Of b c p) c.other.stone x z :=
        Relation.ReflTransGen.tail hxy hstep
      have hzcap : z ∉ capturedSet (b1Of b c p) p c := by
        intro hzcap
        obtain ⟨-, hlib_z⟩ := capturedSet_sub_rel b c p hzcap
        have hzx : z ∈ relGroup (b1Of b c p) x := by
          rw [relGroup, hb1x]
          exact hz1
        have hgx : relGroup (b1Of b c p) z = relGroup (b1Of b c p) x :=
          relGroup_eq_of_mem hzx
        have hx_rel : x ∈ capturedRel (b1Of b c p) c := by
          refine ⟨hb1x, ?_⟩
          rw [← hgx]
          exact hlib_z
        have : x ∈ capturedSet (b1Of b c p) p c := by
          rw [← Finset.mem_coe, capturedSet_eq_rel b c p hinv hemp]
          exact hx_rel
        exact hxcap this
      have hz2 : b2Of b c p z = c.other.stone := by
        rw [b2Of_of_not_cap hzcap]
        exact hstep.2
      exact Relation.ReflTransGen.tail ih ⟨hstep.1, hz2⟩

/-- The heart of C7: a committed, non-suicidal placement leaves no
group on the board without a liberty. -/
theorem noDead_preserved (b : Board) (c : Player) (p : Pos)
    (hemp : b p = Stone.Empty) (hinv : noDeadGroups b)
    (hsui : (relLibs (b2Of b c p)
      (relGroup (b2Of b c p) p)).Nonempty) :
    noDeadGroups (b2Of b c p) := by
  intro x hx
  by_cases hxcap : x ∈ capturedSet (b1Of b c p) p c
  · exact absurd (b2Of_of_cap hxcap) hx
  have hb2x : b2Of b c p x = b1Of b c p x := b2Of_of_not_cap hxcap
  by_cases hxp : x = p
  · subst hxp
    exact hsui
  have hb1x : b1Of b c p x = b x := b1Of_noteq hxp
  rcases stone_cases c (b x) with hcol | hcol | hcol
  · -- impossible: the cell is occupied on the post-capture board
    rw [hb2x, hb1x] at hx
    exact absurd hcol hx
  · -- the mover's colour
    have hb2cs : b2Of b c p x = c.stone := by rw [hb2x, hb1x, hcol]
    by_cases hpg : p ∈ relGroup (b2Of b c p) x
    · rw [← relGroup_eq_of_mem hpg]
      exact hsui
    · have hreach_np : ¬ reach (b2Of b c p) c.stone x p := by
        intro h
        apply hpg
        rw [relGroup, hb2cs]
        exact h
      have hgeq : relGroup (b2Of b c p) x = relGroup b x := by
        ext z
        rw [relGroup, relGroup, hb2cs, hcol]
        exact ⟨fun h => reach_b2_cs_to_b b c p hemp hreach_np h,
          fun h => reach_b_cs_to_b2 b c p hemp h⟩
      obtain ⟨z, hzlib⟩ := hinv x (by rw [hcol]; exact player_stone_ne_empty c)
      obtain ⟨hze, w, hw, hadjwz⟩ := hzlib
      have hzp : z ≠ p := by
        intro hz
        rw [hz] at hadjwz
        apply hpg
        have hw2 : w ∈ relGroup (b2Of b c p) x := by
          rw [hgeq]
          exact hw
        have hw2r : reach (b2Of b c p) c.stone x w := by
          rw [relGroup, hb2cs] at hw2
          exact hw2
        rw [relGroup, hb2cs]
        exact Relation.ReflTransGen.tail hw2r ⟨hadjwz, b2Of_self b c p⟩
      have hzcap : z ∉ capturedSet (b1Of b c p) p c := by
        intro hzcap
        have := capturedSet_colour hzcap
        rw [b1Of_noteq hzp, hze] at this
        exact player_stone_ne_empty c.other this.symm
      have hz2 : b2Of b c p z = Stone.Empty := by
        rw [b2Of_of_not_cap hzcap, b1Of_noteq hzp]
        exact hze
      exact ⟨z, hz2, w, by rw [hgeq]; exact hw, hadjwz⟩
  · -- the opposing colour
    have hb1xd : b1Of b c p x = c.other.stone := by rw [hb1x, hcol]
    have hb2xd : b2Of b c p x = c.other.stone := by rw [hb2x, hb1xd]
    have hgeq1 : relGroup (b2Of b c p) x = relGroup (b1Of b c p) x := by
      ext z
      rw [relGroup, relGroup, hb2xd, hb1xd]
      exact reach_b2_d_iff_b1 b c p hinv hemp hxcap hb1xd z
    have hlib1 : relLibs (b1Of b c p)
        (relGroup (b1Of b c p) x) ≠ ∅ := by
      intro hlib
      have hx_rel : x ∈ capturedRel (b1Of b c p) c := ⟨hb1xd, hlib⟩
      have : x ∈ capturedSet (b1Of b c p) p c := by
        rw [← Finset.mem_coe, capturedSet_eq_rel b c p hinv hemp]
        exact hx_rel
      exact hxcap this
    obtain ⟨z, hzlib⟩ := Set.nonempty_iff_ne_empty.mpr hlib1
    obtain ⟨hze, w, hw, hadjwz⟩ := hzlib
    have hzcap : z ∉ capturedSet (b1Of b c p) p c := by
      intro hzcap
      have := capturedSet_colour hzcap
      rw [hze] at this
      exact player_stone_ne_empty c.other this.symm
    have hz2 : b2Of b c p z = Stone.Empty := by
      rw [b2Of_of_not_cap hzcap]
      exact hze
    exact ⟨z, hz2, w, by rw [hgeq1]; exact hw, hadjwz⟩

/-- C7: every state reachable from a fresh match through `place_stone`,
`pass` and `reset` has no zero-liberty group: every maximal
4-connected same-colour group on the board keeps at least one
liberty after every committed operation. -/
theorem no_zero_liberty_groups (st : MatchState) (h : Reachable st) :
    noDeadGroups st.board := by
  induction h with
  | init => intro q hq; exact absurd rfl hq
  | step_place st row col hst ih =>
    by_cases hf : (place_stone st row col).1 = true
    · obtain ⟨hgo, b2, ncap, hmr⟩ := place_stone_success_shape hf
      obtain ⟨hr, hc, hemp, hsui, hb2, -⟩ := moveResult_some_elim hmr
      have hcommit := place_stone_of_some hgo hmr
      have hboard : (place_stone st row col).2.board
          = b2Of st.board st.current (⟨row, hr⟩, ⟨col, hc⟩) := by
        rw [hcommit]
        exact hb2
      rw [hboard]
      apply noDead_preserved st.board st.current _ hemp ih
      rw [← libsFin_group_eq, Finset.coe_nonempty]
      exact Finset.nonempty_iff_ne_empty.mpr hsui
    · have hf' : (place_stone st row col).1 = false := by simpa using hf
      rw [place_stone_false_inv hf']
      exact ih
  | step_pass st hst ih =>
    rw [pass_board]
    exact ih
  | step_reset st hst ih =>
    intro q hq
    exact absurd rfl hq

/-- C7 witness: the fresh match is reachable and satisfies the
invariant. -/
theorem no_zero_liberty_groups_witness : noDeadGroups initState.board :=
  no_zero_liberty_groups initState Reachable.init

end GoGame
